import Mathlib

/-!
# teedy-importer: the reconciliation pass of `main.go`

A shallow embedding of `src/main.go`.

* A Go `string` is a `List Char`.  The program only compares strings, sorts them
  and cuts them at the ASCII characters `/`, `.` and `%`, so on UTF-8 text the
  character view and Go's byte view agree (slices are always taken at one of
  these characters, and code-point order is byte order).
* A `fastjson` object is a record of optional fields.  A string field is `none`
  when the key is absent or its value is not a string; an integer field is
  `some n` when the value is a number written as the plain integer `n`, and `none`
  otherwise.  The accessors `GetStringBytes` and `GetInt` return the empty string
  and `0` where the library does: for `none`, and, for `GetInt`, for an integer
  outside the range of Go's `int` (64 bits).
* The remote calls `CreateDocument`, `CreateFile` and `DeleteDocument` are
  recorded as a trace of `Action`s, in call order.  What the environment
  answers is a parameter (`Env`): whether `os.OpenFile` fails on a path, and
  the id the service returns when a document is created.
* Every `logrus.Fatalf` ends the process; the trace describes a run in which no
  remote call is fatal.
-/

namespace TeedyImporter

/-- A Go string. -/
abbrev GoString := List Char

/-! ## fastjson values -/

/-- An element of the `tags` array of the tag list or of a document. -/
structure TagEntry where
  id : Option GoString
  name : Option GoString
deriving DecidableEq, Repr

/-- An element of the `documents` array of the document list. -/
structure Document where
  id : Option GoString
  title : Option GoString
  tags : List TagEntry
  file_count : Option Int
deriving DecidableEq, Repr

/-- The accessor `string(v.GetStringBytes(key))`: empty when the key is absent. -/
def GetStringBytes (field : Option GoString) : GoString :=
  field.getD []

/-- The accessor `v.GetInt(key)`, with `int` of 64 bits: the integer the number is
written as when it fits an `int`; zero when it does not fit, and zero when the key is
absent or the value is not a number written as a plain integer
(`ParseInt64BestEffort` returns `0` in those cases). -/
def GetInt (field : Option Int) : Int :=
  match field with
  | some n => if -9223372036854775808 ≤ n ∧ n ≤ 9223372036854775807 then n else 0
  | none => 0

/-! ## Go standard library: `sort.Strings`, `path.Base`, `path.Ext`, `strings.ReplaceAll` -/

/-- The function `sort.Strings`: the ascending rearrangement of a slice of strings.
Equal strings are indistinguishable, so every correct sort returns this list. -/
def sortStrings (l : List GoString) : List GoString :=
  List.insertionSort (fun a b => a ≤ b) l

/-- The loop of `path.Base` that strips trailing slashes:
`for len(path) > 0 && path[len(path)-1] == '/' { path = path[0 : len(path)-1] }`. -/
def stripTrailingSlashes (path : GoString) : GoString :=
  path.rdropWhile (fun c => c == '/')

/-- The loop of `lastSlash`, with `i + 1` as the counter:
`for i >= 0 && s[i] != '/' { i-- }; return i`. -/
def lastSlashFrom (s : GoString) : Nat → Int
  | 0 => -1
  | i + 1 => if s[i]? = some '/' then (i : Int) else lastSlashFrom s i

/-- The helper `lastSlash` of package `path`: index of the last slash, or `-1`. -/
def lastSlash (s : GoString) : Int :=
  lastSlashFrom s s.length

/-- The function `path.Base`. -/
def Base (path : GoString) : GoString :=
  if path = [] then ['.']
  else
    let path := stripTrailingSlashes path
    let i := lastSlash path
    let path := if 0 ≤ i then path.drop (i + 1).toNat else path
    if path = [] then ['/'] else path

/-- The loop of `path.Ext`, with `i + 1` as the counter:
`for i := len(path) - 1; i >= 0 && path[i] != '/'; i-- { if path[i] == '.' { return path[i:] } }`. -/
def extFrom (path : GoString) : Nat → GoString
  | 0 => []
  | i + 1 =>
    if path[i]? = some '/' then []
    else if path[i]? = some '.' then path.drop i
    else extFrom path i

/-- The function `path.Ext`. -/
def Ext (path : GoString) : GoString :=
  extFrom path path.length

/-- The call `strings.ReplaceAll(s, "%", "")`. -/
def removePercent (s : GoString) : GoString :=
  s.filter (fun c => c != '%')

/-! ## main.go -/

/-- Function `getFilename`. -/
def getFilename (s : GoString) : GoString :=
  let s := Base s
  s.take (s.length - (Ext s).length)

/-- Lines 47-57 of `main`: the global `Tags` after the lookup loop and `sort.Strings`. -/
def resolveTags (TagNames : List GoString) (tagData : List TagEntry) : List GoString :=
  sortStrings
    (TagNames.foldl
      (fun Tags name =>
        tagData.foldl
          (fun Tags tagEntry =>
            if name ≠ GetStringBytes tagEntry.name then Tags
            else Tags ++ [GetStringBytes tagEntry.id])
          Tags)
      [])

/-- A call the program makes to the remote service. -/
inductive Action where
  /-- The call `CreateDocument(client, name)`. -/
  | CreateDocument (name : GoString)
  /-- The call `CreateFile(client, file, fileName, documentID)`; `file` is the path
  the handle was opened on.  The spec calls this action `UploadFile`. -/
  | CreateFile (file : GoString) (fileName : GoString) (documentID : GoString)
  /-- The call `DeleteDocument(client, documentID)`. -/
  | DeleteDocument (documentID : GoString)
deriving DecidableEq, Repr

/-- What the environment answers during a run. -/
structure Env where
  /-- Whether `os.OpenFile` returns an error for this path. -/
  openFails : GoString → Bool
  /-- The id in the service's reply to `CreateDocument` made while the loop over
  files is at the given index. -/
  createdID : Nat → GoString

/-- Lines 74-77: the ids of a document's tags, appended one by one. -/
def docTags (doc : Document) : List GoString :=
  doc.tags.foldl (fun tags tag => tags ++ [GetStringBytes tag.id]) []

/-- Lines 69-83: whether the scan of one document gets past both `continue`s.
Both slices given to `reflect.DeepEqual` are built by `append` from a nil slice, so
each is nil exactly when it is empty and the comparison is equality of lists. -/
def docMatches (name : GoString) (Tags : List GoString) (doc : Document) : Bool :=
  if name ≠ GetStringBytes doc.title then false
  else if sortStrings (docTags doc) ≠ Tags then false
  else true

/-- Lines 68-90: one iteration of the loop over documents, on `(documentID, hasFile)`. -/
def scanDocument (name : GoString) (Tags : List GoString)
    (st : GoString × Bool) (doc : Document) : GoString × Bool :=
  if docMatches name Tags doc then
    (GetStringBytes doc.id, if GetInt doc.file_count > 0 then true else st.2)
  else st

/-- Lines 66-90: the loop over documents, from `documentID = ""`, `hasFile = false`. -/
def findDocument (name : GoString) (Tags : List GoString) (documents : List Document) :
    GoString × Bool :=
  documents.foldl (scanDocument name Tags) ([], false)

/-- Lines 64-106: the body of the loop over files, at index `i`; the calls it makes. -/
def processFile (env : Env) (Tags : List GoString) (documents : List Document)
    (i : Nat) (filePath : GoString) : List Action :=
  let name := getFilename filePath
  let found := findDocument name Tags documents
  let hasFile := found.2
  let created : List Action :=
    if found.1.length = 0 then [Action.CreateDocument name] else []
  let documentID := if found.1.length = 0 then env.createdID i else found.1
  if env.openFails filePath then created
  else if !hasFile then created ++ [Action.CreateFile filePath (removePercent name) documentID]
  else created

/-- Lines 63-107: the loop over files, from index `i`. -/
def fileLoop (env : Env) (Tags : List GoString) (documents : List Document) :
    Nat → List GoString → List Action
  | _, [] => []
  | i, filePath :: rest =>
    processFile env Tags documents i filePath ++ fileLoop env Tags documents (i + 1) rest

/-- Lines 110-122: the flag `removeDoc` after the loop over files. -/
def removeDoc (files : List GoString) (docTitle : GoString) : Bool :=
  files.foldl
    (fun removeDoc checkFile => if getFilename checkFile ≠ docTitle then removeDoc else false)
    true

/-- Lines 109-128: the loop over documents that deletes. -/
def deleteLoop (files : List GoString) : List Document → List Action
  | [] => []
  | doc :: rest =>
    (if removeDoc files (GetStringBytes doc.title)
      then [Action.DeleteDocument (GetStringBytes doc.id)] else [])
      ++ deleteLoop files rest

/-- Lines 63-128 of `main`: the pass over files and documents for a given `Tags`. -/
def reconcile (env : Env) (Tags : List GoString) (files : List GoString)
    (documents : List Document) : List Action :=
  fileLoop env Tags documents 0 files ++ deleteLoop files documents

/-- Function `main` from the tag lookup on (lines 46-128). -/
def main (env : Env) (TagNames : List GoString) (tagData : List TagEntry)
    (files : List GoString) (documents : List Document) : List Action :=
  reconcile env (resolveTags TagNames tagData) files documents

/-! ## Vocabulary of the specification -/

/-- The document's title as the program reads it. -/
def Document.titleStr (d : Document) : GoString := GetStringBytes d.title

/-- The document's id as the program reads it. -/
def Document.idStr (d : Document) : GoString := GetStringBytes d.id

/-- The ids of the document's tags, in the order the document lists them. -/
def Document.tagIds (d : Document) : List GoString :=
  d.tags.map (fun t => GetStringBytes t.id)

/-- The spec's `hasFile`, as line 87 derives it: `doc.GetInt("file_count") > 0`. -/
def Document.hasFile (d : Document) : Bool := decide (GetInt d.file_count > 0)

/-- The spec's match of a document with a local file under a tag signature:
the title is the display name and the sorted tag ids are the signature. -/
def Matches (filePath : GoString) (signature : List GoString) (d : Document) : Prop :=
  d.titleStr = getFilename filePath ∧ sortStrings d.tagIds = signature

instance (filePath : GoString) (signature : List GoString) (d : Document) :
    Decidable (Matches filePath signature d) := by
  unfold Matches; infer_instance

/-- The last document of the list that matches the file, if any. -/
def lastMatch (filePath : GoString) (signature : List GoString) (documents : List Document) :
    Option Document :=
  (documents.filter (fun d => decide (Matches filePath signature d))).getLast?

/-- The actions the pass emits for the file at index `i` of `files`: the calls made
while the loop over files is at that index. -/
def emittedFor (env : Env) (Tags : List GoString) (files : List GoString)
    (documents : List Document) (i : Nat) : List Action :=
  match files[i]? with
  | some filePath => processFile env Tags documents i filePath
  | none => []

/-- The action is a `CreateDocument`. -/
def Action.isCreate : Action → Bool
  | Action.CreateDocument _ => true
  | _ => false

/-- The action is a `CreateFile` (the spec's `UploadFile`). -/
def Action.isUpload : Action → Bool
  | Action.CreateFile _ _ _ => true
  | _ => false

/-- The action is a `DeleteDocument`. -/
def Action.isDelete : Action → Bool
  | Action.DeleteDocument _ => true
  | _ => false

/-- The spec's stripping of the final extension: the text from the last `.` to the
end is removed; a segment without `.` is kept whole. -/
def stripFinalExtension (segment : GoString) : GoString :=
  if '.' ∈ segment then (segment.rdropWhile (fun c => c != '.')).dropLast else segment

/-- The spec's last path segment of a path that does not end in a slash: the text
after the last `/`, the whole path when it holds none. -/
def lastSegment (path : GoString) : GoString :=
  path.rtakeWhile (fun c => c != '/')

/-- The spec's last path segment of any path: the last non-empty component between
slashes, trailing slashes being ignored; empty when the path has no such component. -/
def lastComponent (path : GoString) : GoString :=
  ((path.reverse.dropWhile (fun c => c == '/')).takeWhile (fun c => c != '/')).reverse

/-- The spec's resolution of the configured names: for each name in turn, the id of
every catalog entry whose name is that name. -/
def resolvedIds (TagNames : List GoString) (tagData : List TagEntry) : List GoString :=
  TagNames.flatMap (fun name =>
    (tagData.filter (fun e => decide (GetStringBytes e.name = name))).map
      (fun e => GetStringBytes e.id))

/-- An environment in which every file opens and created documents get id `new`. -/
def envOpen : Env := ⟨fun _ => false, fun _ => "new".toList⟩

/-- An environment in which no file opens. -/
def envClosed : Env := ⟨fun _ => true, fun _ => "new".toList⟩

/-- An environment in which only `a.txt` fails to open. -/
def envOnlyAFails : Env := ⟨fun g => decide (g = "a.txt".toList), fun _ => "new".toList⟩

/-- A document titled `a` with id `5` that lists the tags `t2`, `t1` in this order. -/
def docTwoTags : Document :=
  ⟨some "5".toList, some "a".toList,
    [⟨some "t2".toList, none⟩, ⟨some "t1".toList, none⟩], none⟩

/-- A document titled `a%` without tags, with id `2` and no file count. -/
def docPercent : Document := ⟨some "2".toList, some "a%".toList, [], none⟩

/-- A document titled `a` without tags, with one file and no `id` field. -/
def docNoId : Document := ⟨none, some "a".toList, [], some 1⟩

/-- A document titled `a` without tags, with one file and the empty string as id. -/
def docEmptyId : Document := ⟨some [], some "a".toList, [], some 1⟩

/-- A document titled `a` without tags, with id `1` and one file. -/
def docWithFile : Document := ⟨some "1".toList, some "a".toList, [], some 1⟩

/-- A document titled `a` without tags, with id `2` and no file. -/
def docNoFile : Document := ⟨some "2".toList, some "a".toList, [], some 0⟩

/-- A document titled `a` without tags, with id `3`, whose file count is written as
`9223372036854775808`, one more than the largest `int`. -/
def docHugeCount : Document := ⟨some "3".toList, some "a".toList, [], some 9223372036854775808⟩

/-- A document titled `a` without tags, with no file and no `id` field. -/
def docNoFileNoId : Document := ⟨none, some "a".toList, [], some 0⟩

/-! ## Sorting -/

theorem sortStrings_sorted (l : List GoString) :
    List.Sorted (fun a b => a ≤ b) (sortStrings l) :=
  List.sorted_insertionSort _ l

theorem sortStrings_perm (l : List GoString) : (sortStrings l).Perm l :=
  List.perm_insertionSort _ l

theorem sortStrings_eq_iff_perm (l S : List GoString)
    (hS : List.Sorted (fun a b => a ≤ b) S) : sortStrings l = S ↔ l.Perm S := by
  constructor
  · intro h
    rw [← h]
    exact (sortStrings_perm l).symm
  · intro h
    exact List.eq_of_perm_of_sorted ((sortStrings_perm l).trans h) (sortStrings_sorted l) hS

/-! ## The loop over documents -/

theorem foldl_append_singleton {α β : Type} (f : α → β) (l : List α) (init : List β) :
    l.foldl (fun acc x => acc ++ [f x]) init = init ++ l.map f := by
  induction l generalizing init with
  | nil => simp
  | cons a l ih => simp [ih]

theorem docTags_eq (d : Document) : docTags d = d.tagIds := by
  simp [docTags, Document.tagIds, foldl_append_singleton]

theorem docMatches_iff (filePath : GoString) (Tags : List GoString) (d : Document) :
    docMatches (getFilename filePath) Tags d = true ↔ Matches filePath Tags d := by
  unfold docMatches Matches Document.titleStr
  rw [docTags_eq]
  by_cases h1 : getFilename filePath = GetStringBytes d.title
  · by_cases h2 : sortStrings d.tagIds = Tags
    · simp [h1, h2]
    · simp [h1, h2]
  · have h3 : ¬ GetStringBytes d.title = getFilename filePath := fun h => h1 h.symm
    simp [h1, h3]

theorem docMatches_eq_decide (filePath : GoString) (Tags : List GoString) (d : Document) :
    docMatches (getFilename filePath) Tags d = decide (Matches filePath Tags d) := by
  by_cases h : Matches filePath Tags d
  · simp [h, (docMatches_iff filePath Tags d).2 h]
  · have : ¬ docMatches (getFilename filePath) Tags d = true :=
      fun h1 => h ((docMatches_iff filePath Tags d).1 h1)
    simp [h, this]

/-- The loop over documents from any start state: the id is that of the last
matching document (the start value when there is none), and the flag is raised
as soon as one matching document has a file. -/
theorem foldl_scanDocument (name : GoString) (Tags : List GoString)
    (documents : List Document) (st : GoString × Bool) :
    documents.foldl (scanDocument name Tags) st =
      ((((documents.filter (docMatches name Tags)).getLast?).map Document.idStr).getD st.1,
        st.2 || documents.any (fun d => docMatches name Tags d && d.hasFile)) := by
  induction documents generalizing st with
  | nil => simp
  | cons d ds ih =>
    rw [List.foldl_cons, ih]
    by_cases hm : docMatches name Tags d = true
    · have hf : List.filter (docMatches name Tags) (d :: ds)
          = d :: List.filter (docMatches name Tags) ds := by simp [hm]
      rw [hf, List.getLast?_cons]
      by_cases hc : GetInt d.file_count > 0
      · cases hl : (List.filter (docMatches name Tags) ds).getLast? <;>
          simp [scanDocument, hm, hc, Document.hasFile, Document.idStr]
      · cases hl : (List.filter (docMatches name Tags) ds).getLast? <;>
          simp [scanDocument, hm, hc, Document.hasFile, Document.idStr]
    · have hf : List.filter (docMatches name Tags) (d :: ds)
          = List.filter (docMatches name Tags) ds := by simp [hm]
      rw [hf]
      simp [scanDocument, hm]

theorem filter_docMatches (filePath : GoString) (Tags : List GoString)
    (documents : List Document) :
    documents.filter (docMatches (getFilename filePath) Tags)
      = documents.filter (fun d => decide (Matches filePath Tags d)) := by
  congr 1
  funext d
  exact docMatches_eq_decide filePath Tags d

theorem findDocument_fst (filePath : GoString) (Tags : List GoString)
    (documents : List Document) :
    (findDocument (getFilename filePath) Tags documents).1
      = ((lastMatch filePath Tags documents).map Document.idStr).getD [] := by
  unfold findDocument lastMatch
  rw [foldl_scanDocument, filter_docMatches]

theorem findDocument_snd (filePath : GoString) (Tags : List GoString)
    (documents : List Document) :
    (findDocument (getFilename filePath) Tags documents).2
      = documents.any (fun d => decide (Matches filePath Tags d) && d.hasFile) := by
  unfold findDocument
  rw [foldl_scanDocument]
  simp only [Bool.false_or]
  congr 1
  funext d
  rw [docMatches_eq_decide]

/-! ## The loop over files -/

theorem fileLoop_eq_flatMap (env : Env) (Tags : List GoString) (documents : List Document)
    (files : List GoString) (k : Nat) :
    fileLoop env Tags documents k files =
      (List.range files.length).flatMap (fun j =>
        match files[j]? with
        | some filePath => processFile env Tags documents (k + j) filePath
        | none => []) := by
  induction files generalizing k with
  | nil => simp [fileLoop]
  | cons f fs ih =>
    rw [fileLoop, ih (k + 1), List.length_cons, List.range_succ_eq_map, List.flatMap_cons,
      List.flatMap_map]
    congr 1
    · simp
    · refine List.flatMap_congr ?_
      intro j _
      simp [Nat.add_assoc, Nat.add_comm 1 j]

/-- The trace of the pass is the concatenation, over the indices of `files`, of the
actions emitted for each file, followed by the deletions. -/
theorem reconcile_eq (env : Env) (Tags : List GoString) (files : List GoString)
    (documents : List Document) :
    reconcile env Tags files documents =
      (List.range files.length).flatMap (emittedFor env Tags files documents)
        ++ deleteLoop files documents := by
  unfold reconcile
  rw [fileLoop_eq_flatMap]
  congr 1
  refine List.flatMap_congr ?_
  intro j _
  simp [emittedFor]

theorem emittedFor_eq (env : Env) (Tags : List GoString) (files : List GoString)
    (documents : List Document) (i : Nat) (f : GoString) (hf : files[i]? = some f) :
    emittedFor env Tags files documents i = processFile env Tags documents i f := by
  simp [emittedFor, hf]

/-- The body of the loop over files in terms of the last match and of whether some
matching document has a file. -/
theorem processFile_eq (env : Env) (Tags : List GoString) (documents : List Document)
    (i : Nat) (f : GoString) :
    processFile env Tags documents i f =
      (if ((lastMatch f Tags documents).map Document.idStr).getD [] = []
        then [Action.CreateDocument (getFilename f)] else [])
      ++ (if env.openFails f = true
            ∨ documents.any (fun d => decide (Matches f Tags d) && d.hasFile) = true then []
          else [Action.CreateFile f (removePercent (getFilename f))
            (if ((lastMatch f Tags documents).map Document.idStr).getD [] = []
              then env.createdID i
              else ((lastMatch f Tags documents).map Document.idStr).getD [])]) := by
  unfold processFile
  simp only [findDocument_fst, findDocument_snd, List.length_eq_zero]
  by_cases ho : env.openFails f = true
  · simp [ho]
  · by_cases hh : documents.any (fun d => decide (Matches f Tags d) && d.hasFile) = true
    · simp [ho, hh]
    · simp only [Bool.not_eq_true] at ho hh
      simp [ho, hh]

theorem processFile_no_delete (env : Env) (Tags : List GoString) (documents : List Document)
    (i : Nat) (f : GoString) :
    (processFile env Tags documents i f).filter Action.isDelete = [] := by
  rw [processFile_eq]
  split_ifs <;> simp [Action.isDelete]

theorem fileLoop_no_delete (env : Env) (Tags : List GoString) (documents : List Document)
    (files : List GoString) (k : Nat) :
    (fileLoop env Tags documents k files).filter Action.isDelete = [] := by
  induction files generalizing k with
  | nil => simp [fileLoop]
  | cons f fs ih => simp [fileLoop, processFile_no_delete, ih]

/-! ## The loop that deletes -/

theorem removeDoc_foldl (files : List GoString) (t : GoString) (b : Bool) :
    files.foldl (fun removeDoc checkFile =>
        if getFilename checkFile ≠ t then removeDoc else false) b
      = (b && files.all (fun f => getFilename f != t)) := by
  induction files generalizing b with
  | nil => simp
  | cons f fs ih =>
    rw [List.foldl_cons, ih]
    by_cases h : getFilename f = t
    · simp [h]
    · have h2 : (getFilename f != t) = true := by simpa using h
      simp [h, h2]

theorem removeDoc_eq (files : List GoString) (t : GoString) :
    removeDoc files t = files.all (fun f => getFilename f != t) := by
  unfold removeDoc
  rw [removeDoc_foldl]
  simp

theorem deleteLoop_eq (files : List GoString) (documents : List Document) :
    deleteLoop files documents =
      (documents.filter (fun d => files.all (fun f => getFilename f != d.titleStr))).map
        (fun d => Action.DeleteDocument d.idStr) := by
  induction documents with
  | nil => simp [deleteLoop]
  | cons d ds ih =>
    rw [deleteLoop, ih, removeDoc_eq]
    by_cases h : (files.all (fun f => getFilename f != GetStringBytes d.title)) = true
    · simp [List.filter_cons, Document.titleStr, Document.idStr, h]
    · simp only [Bool.not_eq_true] at h
      simp [List.filter_cons, Document.titleStr, h]

theorem deleteLoop_filter (files : List GoString) (documents : List Document) :
    (deleteLoop files documents).filter Action.isDelete = deleteLoop files documents := by
  rw [deleteLoop_eq, List.filter_eq_self]
  intro a ha
  obtain ⟨d, _, rfl⟩ := List.mem_map.1 ha
  rfl

/-! ## The file count -/

/-- The flag `hasFile` is raised exactly for a file count written as a positive
integer that fits an `int`. -/
theorem hasFile_iff (d : Document) :
    d.hasFile = true ↔ ∃ n : Int, d.file_count = some n ∧ 0 < n ∧ n ≤ 9223372036854775807 := by
  unfold Document.hasFile GetInt
  rw [decide_eq_true_eq]
  cases h : d.file_count with
  | none => simp
  | some n =>
    simp only [Option.some.injEq, exists_eq_left']
    by_cases hr : -9223372036854775808 ≤ n ∧ n ≤ 9223372036854775807
    · rw [if_pos hr]
      constructor
      · intro h0
        exact ⟨h0, hr.2⟩
      · intro h0
        exact h0.1
    · rw [if_neg hr]
      constructor
      · intro h0
        exact absurd h0 (by decide)
      · intro h0
        exact absurd ⟨by omega, h0.2⟩ hr

/-- A file count beyond the range of `int` is read as zero: the matching document
counts as having no file and the file is uploaded to it. -/
theorem file_count_out_of_range :
    GetInt docHugeCount.file_count = 0
      ∧ docHugeCount.hasFile = false
      ∧ reconcile envOpen [] ["a.txt".toList] [docHugeCount]
          = [Action.CreateFile "a.txt".toList "a".toList "3".toList] := by
  decide

/-! ## Create, upload, skip -/

theorem lastMatch_eq_none (f : GoString) (Tags : List GoString) (documents : List Document)
    (hno : ∀ d ∈ documents, ¬ Matches f Tags d) : lastMatch f Tags documents = none := by
  unfold lastMatch
  have : documents.filter (fun d => decide (Matches f Tags d)) = [] := by
    rw [List.filter_eq_nil_iff]
    intro d hd
    simpa using hno d hd
  rw [this]
  rfl

theorem any_hasFile_of_mem (f : GoString) (Tags : List GoString) (documents : List Document)
    (d : Document) (hd : d ∈ documents) (hm : Matches f Tags d) (hh : d.hasFile = true) :
    documents.any (fun d => decide (Matches f Tags d) && d.hasFile) = true := by
  rw [List.any_eq_true]
  exact ⟨d, hd, by simp [hm, hh]⟩

theorem any_hasFile_eq_false (f : GoString) (Tags : List GoString) (documents : List Document)
    (hno : ∀ d ∈ documents, Matches f Tags d → d.hasFile = false) :
    documents.any (fun d => decide (Matches f Tags d) && d.hasFile) = false := by
  rw [Bool.eq_false_iff]
  intro h
  obtain ⟨d, hd, hp⟩ := List.any_eq_true.1 h
  simp only [Bool.and_eq_true, decide_eq_true_eq] at hp
  rw [hno d hd hp.1] at hp
  exact Bool.false_ne_true hp.2

theorem not_mem_removePercent (s : GoString) : '%' ∉ removePercent s := by
  intro h
  have := (List.mem_filter.1 h).2
  simp at this

theorem removePercent_eq_self (s : GoString) (h : '%' ∉ s) : removePercent s = s := by
  unfold removePercent
  rw [List.filter_eq_self]
  intro c hc
  have : c ≠ '%' := fun e => h (e ▸ hc)
  simpa using this

/-- C1, as the code has it: when the last document of the list that matches the
file (title equal to the display name, sorted tag ids equal to the signature) has a
non-empty id, the pass makes no `CreateDocument` call for that file. -/
theorem no_create_when_last_match_has_id (env : Env) (Tags : List GoString)
    (files : List GoString) (documents : List Document) (i : Nat) (f : GoString)
    (d : Document) (hf : files[i]? = some f) (hd : lastMatch f Tags documents = some d)
    (hid : d.idStr ≠ []) :
    ∀ a ∈ emittedFor env Tags files documents i, a.isCreate = false := by
  rw [emittedFor_eq env Tags files documents i f hf, processFile_eq]
  simp only [hd, Option.map_some', Option.getD_some, hid, if_false, List.nil_append]
  intro a ha
  split_ifs at ha
  · simp at ha
  · rw [List.mem_singleton] at ha
    rw [ha]
    rfl

/-- Witness for C1: a file whose only matching document has id `1`. -/
theorem no_create_when_last_match_has_id_witness :
    ["a.txt".toList][0]? = some "a.txt".toList
      ∧ lastMatch "a.txt".toList [] [docWithFile] = some docWithFile
      ∧ docWithFile.idStr ≠ []
      ∧ ∀ a ∈ emittedFor envOpen [] ["a.txt".toList] [docWithFile] 0, a.isCreate = false :=
  ⟨rfl, by decide, by decide,
    no_create_when_last_match_has_id envOpen [] ["a.txt".toList] [docWithFile] 0
      "a.txt".toList docWithFile rfl (by decide) (by decide)⟩

/-- C1 as stated fails: a document that matches the file but has no `id` field, or
the empty string as id, does not stop the `CreateDocument` call for the file. -/
theorem create_despite_match_without_id :
    (Matches "a.txt".toList [] docNoId
      ∧ Action.CreateDocument "a".toList
          ∈ emittedFor envOpen [] ["a.txt".toList] [docNoId] 0)
    ∧ (Matches "a.txt".toList [] docEmptyId
      ∧ Action.CreateDocument "a".toList
          ∈ emittedFor envOpen [] ["a.txt".toList] [docEmptyId] 0) := by
  decide

/-- C2: for a file that no document matches by title and tag signature, the pass
makes exactly one `CreateDocument` call, with the display name (`getFilename` of the
path, `%` kept) as title. -/
theorem create_once_when_no_match (env : Env) (Tags : List GoString)
    (files : List GoString) (documents : List Document) (i : Nat) (f : GoString)
    (hf : files[i]? = some f) (hno : ∀ d ∈ documents, ¬ Matches f Tags d) :
    (emittedFor env Tags files documents i).filter Action.isCreate
      = [Action.CreateDocument (getFilename f)] := by
  rw [emittedFor_eq env Tags files documents i f hf, processFile_eq,
    lastMatch_eq_none f Tags documents hno]
  simp only [Option.map_none', Option.getD_none, if_true]
  split_ifs <;> simp [Action.isCreate]

/-- Witness for C2: the document is titled `a`, the file is `b%.txt`. -/
theorem create_once_when_no_match_witness :
    ["b%.txt".toList][0]? = some "b%.txt".toList
      ∧ (∀ d ∈ [docWithFile], ¬ Matches "b%.txt".toList [] d)
      ∧ (emittedFor envOpen [] ["b%.txt".toList] [docWithFile] 0).filter Action.isCreate
          = [Action.CreateDocument "b%".toList] :=
  ⟨rfl, by decide,
    create_once_when_no_match envOpen [] ["b%.txt".toList] [docWithFile] 0 "b%.txt".toList
      rfl (by decide)⟩

/-- C3: when a document that matches the file by title and tag signature has
`hasFile` true (line 87: `doc.GetInt("file_count") > 0`, a positive count that fits
an `int`), the pass makes no `CreateFile` (upload) call for the file, wherever that
document stands among the other documents. -/
theorem no_upload_when_match_has_file (env : Env) (Tags : List GoString)
    (files : List GoString) (documents : List Document) (i : Nat) (f : GoString)
    (d : Document) (hf : files[i]? = some f) (hd : d ∈ documents)
    (hm : Matches f Tags d) (hh : d.hasFile = true) :
    ∀ a ∈ emittedFor env Tags files documents i, a.isUpload = false := by
  rw [emittedFor_eq env Tags files documents i f hf, processFile_eq,
    any_hasFile_of_mem f Tags documents d hd hm hh]
  simp only [or_true, if_true, List.append_nil]
  intro a ha
  split_ifs at ha
  · rw [List.mem_singleton] at ha
    rw [ha]
    rfl
  · simp at ha

/-- Witness for C3: the document with a file comes first, one without a file last. -/
theorem no_upload_when_match_has_file_witness :
    ["a.txt".toList][0]? = some "a.txt".toList
      ∧ docWithFile ∈ [docWithFile, docNoFile]
      ∧ Matches "a.txt".toList [] docWithFile
      ∧ docWithFile.hasFile = true
      ∧ ∀ a ∈ emittedFor envOpen [] ["a.txt".toList] [docWithFile, docNoFile] 0,
          a.isUpload = false :=
  ⟨rfl, by decide, by decide, by decide,
    no_upload_when_match_has_file envOpen [] ["a.txt".toList] [docWithFile, docNoFile] 0
      "a.txt".toList docWithFile rfl (by decide) (by decide) (by decide)⟩

/-- C4: the `DeleteDocument` calls of the pass are, in document order, one call with
the document's id for each document whose title is the display name of no local
file; the tags, the file count, the signature and the environment play no part.
So a deletion with id `x` is made iff some document with id `x` has such a title. -/
theorem deletions_title_only (env : Env) (Tags : List GoString) (files : List GoString)
    (documents : List Document) :
    (reconcile env Tags files documents).filter Action.isDelete
        = (documents.filter (fun d => files.all (fun f => getFilename f != d.titleStr))).map
            (fun d => Action.DeleteDocument d.idStr)
      ∧ ∀ x, Action.DeleteDocument x ∈ reconcile env Tags files documents
          ↔ ∃ d ∈ documents, d.idStr = x ∧ ∀ f ∈ files, getFilename f ≠ d.titleStr := by
  have key : (reconcile env Tags files documents).filter Action.isDelete
      = (documents.filter (fun d => files.all (fun f => getFilename f != d.titleStr))).map
          (fun d => Action.DeleteDocument d.idStr) := by
    unfold reconcile
    rw [List.filter_append, fileLoop_no_delete, List.nil_append, deleteLoop_filter,
      deleteLoop_eq]
  refine ⟨key, ?_⟩
  intro x
  have hmem : Action.DeleteDocument x ∈ reconcile env Tags files documents
      ↔ Action.DeleteDocument x
          ∈ (reconcile env Tags files documents).filter Action.isDelete := by
    rw [List.mem_filter]
    exact ⟨fun h => ⟨h, rfl⟩, fun h => h.1⟩
  rw [hmem, key, List.mem_map]
  constructor
  · rintro ⟨d, hd, hx⟩
    rw [List.mem_filter, List.all_eq_true] at hd
    refine ⟨d, hd.1, by simpa using hx, ?_⟩
    intro f hfm
    simpa using hd.2 f hfm
  · rintro ⟨d, hd, hx, hall⟩
    refine ⟨d, ?_, by rw [hx]⟩
    rw [List.mem_filter, List.all_eq_true]
    refine ⟨hd, ?_⟩
    intro f hfm
    simpa using hall f hfm

/-- C5: for a sorted signature, a document gets past both guards of the scan exactly
when its title is the display name and its tag ids are a rearrangement of the
signature; a document with more or fewer tags than the signature never does. -/
theorem match_is_exact_tag_equality (f : GoString) (d : Document) (S : List GoString)
    (hS : List.Sorted (fun a b => a ≤ b) S) :
    (docMatches (getFilename f) S d = true
        ↔ d.titleStr = getFilename f ∧ d.tagIds.Perm S)
      ∧ (d.tagIds.length ≠ S.length → docMatches (getFilename f) S d = false) := by
  have key : docMatches (getFilename f) S d = true
      ↔ d.titleStr = getFilename f ∧ d.tagIds.Perm S := by
    rw [docMatches_iff]
    unfold Matches
    rw [sortStrings_eq_iff_perm d.tagIds S hS]
  refine ⟨key, ?_⟩
  intro hlen
  rw [Bool.eq_false_iff]
  intro h
  exact hlen (key.1 h).2.length_eq

/-- Witness for C5: tags listed as `t2, t1` against the signature `t1, t2`. -/
theorem match_is_exact_tag_equality_witness :
    List.Sorted (fun a b => a ≤ b) ["t1".toList, "t2".toList]
      ∧ ((docMatches (getFilename "a.txt".toList) ["t1".toList, "t2".toList]
            docTwoTags = true
          ↔ Document.titleStr docTwoTags
                = getFilename "a.txt".toList
            ∧ (Document.tagIds docTwoTags).Perm
                ["t1".toList, "t2".toList])
        ∧ ((Document.tagIds docTwoTags).length
              ≠ ["t1".toList, "t2".toList].length
            → docMatches (getFilename "a.txt".toList) ["t1".toList, "t2".toList]
              docTwoTags = false)) :=
  ⟨by decide,
    match_is_exact_tag_equality "a.txt".toList
      docTwoTags
      ["t1".toList, "t2".toList] (by decide)⟩

/-- C8, as the code has it: with one local file and no remote document the trace of
the pass is the `CreateDocument` call for the display name, followed, when the file
opens, by the `CreateFile` call that uploads it into the created document. -/
theorem single_file_no_documents (env : Env) (Tags : List GoString) (f : GoString) :
    reconcile env Tags [f] [] =
      if env.openFails f = true then [Action.CreateDocument (getFilename f)]
      else [Action.CreateDocument (getFilename f),
            Action.CreateFile f (removePercent (getFilename f)) (env.createdID 0)] := by
  unfold reconcile
  simp only [fileLoop, deleteLoop, List.append_nil]
  rw [processFile_eq]
  by_cases ho : env.openFails f = true
  · simp [ho, lastMatch]
  · simp [ho, lastMatch]

/-- C8 as stated fails: on the spec's instance, with the file opening, the trace
holds an upload after the create. -/
theorem single_file_also_uploads :
    envOpen.openFails "invoice.pdf".toList = false
      ∧ reconcile envOpen ["t1".toList, "t2".toList] ["invoice.pdf".toList] []
          = [Action.CreateDocument "invoice".toList,
             Action.CreateFile "invoice.pdf".toList "invoice".toList "new".toList]
      ∧ reconcile envOpen ["t1".toList, "t2".toList] ["invoice.pdf".toList] []
          ≠ [Action.CreateDocument "invoice".toList] := by
  decide

/-- C9, as the code has it: for a file that opens, whose last matching document `d`
has a non-empty id, and none of whose matching documents has a file, the pass makes
the call `CreateFile(file, n, d.id)`, where `n` is the display name with every `%`
removed (`n` holds no `%`, and is the display name when that holds none). -/
theorem upload_to_last_match (env : Env) (Tags : List GoString)
    (files : List GoString) (documents : List Document) (i : Nat) (f : GoString)
    (d : Document) (hf : files[i]? = some f) (ho : env.openFails f = false)
    (hd : lastMatch f Tags documents = some d) (hid : d.idStr ≠ [])
    (hno : ∀ e ∈ documents, Matches f Tags e → e.hasFile = false) :
    Action.CreateFile f (removePercent (getFilename f)) d.idStr
        ∈ emittedFor env Tags files documents i
      ∧ '%' ∉ removePercent (getFilename f)
      ∧ ('%' ∉ getFilename f → removePercent (getFilename f) = getFilename f) := by
  refine ⟨?_, not_mem_removePercent _, removePercent_eq_self _⟩
  rw [emittedFor_eq env Tags files documents i f hf, processFile_eq,
    any_hasFile_eq_false f Tags documents hno]
  simp [hd, hid, ho]

/-- Witness for C9: the file `a%.txt` and one matching document with id `2` and no file. -/
theorem upload_to_last_match_witness :
    ["a%.txt".toList][0]? = some "a%.txt".toList
      ∧ envOpen.openFails "a%.txt".toList = false
      ∧ lastMatch "a%.txt".toList [] [docPercent]
          = some docPercent
      ∧ Document.idStr docPercent ≠ []
      ∧ (∀ e ∈ [docPercent],
          Matches "a%.txt".toList [] e → e.hasFile = false)
      ∧ (Action.CreateFile "a%.txt".toList (removePercent (getFilename "a%.txt".toList))
            (Document.idStr docPercent)
          ∈ emittedFor envOpen [] ["a%.txt".toList]
              [docPercent] 0
        ∧ '%' ∉ removePercent (getFilename "a%.txt".toList)
        ∧ ('%' ∉ getFilename "a%.txt".toList
            → removePercent (getFilename "a%.txt".toList) = getFilename "a%.txt".toList)) :=
  ⟨rfl, rfl, by decide, by decide, by decide,
    upload_to_last_match envOpen [] ["a%.txt".toList]
      [docPercent] 0 "a%.txt".toList
      docPercent rfl rfl (by decide) (by decide)
      (by decide)⟩

/-- C9 as stated fails twice.  When an earlier matching document has a file, the
last matching document without a file gets no upload; and when the last matching
document has no id, the upload goes to the newly created document instead. -/
theorem no_upload_to_last_match :
    (envOpen.openFails "a.txt".toList = false
      ∧ lastMatch "a.txt".toList [] [docWithFile, docNoFile] = some docNoFile
      ∧ docNoFile.hasFile = false
      ∧ emittedFor envOpen [] ["a.txt".toList] [docWithFile, docNoFile] 0 = [])
    ∧ (lastMatch "a.txt".toList [] [docNoFileNoId] = some docNoFileNoId
      ∧ docNoFileNoId.hasFile = false
      ∧ emittedFor envOpen [] ["a.txt".toList] [docNoFileNoId] 0
          = [Action.CreateDocument "a".toList,
             Action.CreateFile "a.txt".toList "a".toList "new".toList]
      ∧ Action.CreateFile "a.txt".toList "a".toList docNoFileNoId.idStr
          ∉ emittedFor envOpen [] ["a.txt".toList] [docNoFileNoId] 0) := by
  decide

/-- C10, as the code has it: when opening a file fails the run goes on, and the
calls made for that file are those of a run in which the open succeeds with the
upload left out: no `CreateFile`, but still the `CreateDocument` made before the open
when no document matches or the last match has an empty id.  The calls for every
other file and all deletions are the same in both runs. -/
theorem open_failure_skips_upload_only (env other : Env) (Tags : List GoString)
    (files : List GoString) (documents : List Document) (i : Nat) (f : GoString)
    (hf : files[i]? = some f) (ho : env.openFails f = true)
    (hid : other.createdID = env.createdID)
    (hopen : ∀ g, g ≠ f → other.openFails g = env.openFails g) :
    emittedFor env Tags files documents i
        = (emittedFor other Tags files documents i).filter (fun a => !a.isUpload)
      ∧ emittedFor env Tags files documents i
        = (if ((lastMatch f Tags documents).map Document.idStr).getD [] = []
            then [Action.CreateDocument (getFilename f)] else [])
      ∧ (∀ a ∈ emittedFor env Tags files documents i, a.isUpload = false)
      ∧ (∀ j g, files[j]? = some g → g ≠ f →
          emittedFor env Tags files documents j = emittedFor other Tags files documents j)
      ∧ (reconcile env Tags files documents).filter Action.isDelete
          = (reconcile other Tags files documents).filter Action.isDelete := by
  have hcur : emittedFor env Tags files documents i
      = if ((lastMatch f Tags documents).map Document.idStr).getD [] = []
          then [Action.CreateDocument (getFilename f)] else [] := by
    rw [emittedFor_eq env Tags files documents i f hf, processFile_eq]
    simp [ho]
  refine ⟨?_, hcur, ?_, ?_, ?_⟩
  · rw [hcur, emittedFor_eq other Tags files documents i f hf, processFile_eq]
    split_ifs <;> simp [Action.isUpload]
  · rw [hcur]
    intro a ha
    split_ifs at ha
    · rw [List.mem_singleton] at ha
      rw [ha]
      rfl
    · simp at ha
  · intro j g hg hne
    rw [emittedFor_eq env Tags files documents j g hg,
      emittedFor_eq other Tags files documents j g hg, processFile_eq, processFile_eq,
      hid, hopen g hne]
  · unfold reconcile
    rw [List.filter_append, List.filter_append, fileLoop_no_delete, fileLoop_no_delete]

/-- Witness for C10: `a.txt` does not open, `b.txt` does; no remote document. -/
theorem open_failure_skips_upload_only_witness :
    ["a.txt".toList, "b.txt".toList][0]? = some "a.txt".toList
      ∧ envOnlyAFails.openFails "a.txt".toList = true
      ∧ envOpen.createdID = envOnlyAFails.createdID
      ∧ (∀ g, g ≠ "a.txt".toList → envOpen.openFails g = envOnlyAFails.openFails g)
      ∧ (emittedFor envOnlyAFails [] ["a.txt".toList, "b.txt".toList] [] 0
          = (emittedFor envOpen [] ["a.txt".toList, "b.txt".toList] [] 0).filter
              (fun a => !a.isUpload)
        ∧ emittedFor envOnlyAFails [] ["a.txt".toList, "b.txt".toList] [] 0
          = (if ((lastMatch "a.txt".toList [] []).map Document.idStr).getD [] = []
              then [Action.CreateDocument (getFilename "a.txt".toList)] else [])
        ∧ (∀ a ∈ emittedFor envOnlyAFails [] ["a.txt".toList, "b.txt".toList] [] 0,
            a.isUpload = false)
        ∧ (∀ j g, ["a.txt".toList, "b.txt".toList][j]? = some g → g ≠ "a.txt".toList →
            emittedFor envOnlyAFails [] ["a.txt".toList, "b.txt".toList] [] j
              = emittedFor envOpen [] ["a.txt".toList, "b.txt".toList] [] j)
        ∧ (reconcile envOnlyAFails [] ["a.txt".toList, "b.txt".toList] []).filter
            Action.isDelete
          = (reconcile envOpen [] ["a.txt".toList, "b.txt".toList] []).filter
            Action.isDelete) :=
  ⟨rfl, by decide, rfl, fun _ hg => (decide_eq_false hg).symm,
    open_failure_skips_upload_only envOnlyAFails envOpen []
      ["a.txt".toList, "b.txt".toList] [] 0 "a.txt".toList rfl (by decide) rfl
      (fun _ hg => (decide_eq_false hg).symm)⟩

/-- C10 as stated fails: a file that does not open and has no matching document
still gets its `CreateDocument` call. -/
theorem create_despite_open_failure :
    envClosed.openFails "a.txt".toList = true
      ∧ emittedFor envClosed [] ["a.txt".toList] [] 0
          = [Action.CreateDocument "a".toList]
      ∧ reconcile envClosed [] ["a.txt".toList] [] = [Action.CreateDocument "a".toList] := by
  decide

/-! ## The tag signature -/

theorem tagData_foldl (name : GoString) (tagData : List TagEntry) (init : List GoString) :
    tagData.foldl
        (fun Tags tagEntry =>
          if name ≠ GetStringBytes tagEntry.name then Tags
          else Tags ++ [GetStringBytes tagEntry.id]) init
      = init ++ (tagData.filter (fun e => decide (GetStringBytes e.name = name))).map
          (fun e => GetStringBytes e.id) := by
  induction tagData generalizing init with
  | nil => simp
  | cons e es ih =>
    rw [List.foldl_cons, ih]
    by_cases h : GetStringBytes e.name = name
    · subst h
      simp [List.filter_cons]
    · have h2 : ¬ name = GetStringBytes e.name := fun x => h x.symm
      simp [List.filter_cons, h, h2]

theorem tagNames_foldl (TagNames : List GoString) (tagData : List TagEntry)
    (init : List GoString) :
    TagNames.foldl
        (fun Tags name =>
          tagData.foldl
            (fun Tags tagEntry =>
              if name ≠ GetStringBytes tagEntry.name then Tags
              else Tags ++ [GetStringBytes tagEntry.id])
            Tags) init
      = init ++ resolvedIds TagNames tagData := by
  induction TagNames generalizing init with
  | nil => simp [resolvedIds]
  | cons n ns ih =>
    rw [List.foldl_cons, ih, tagData_foldl]
    simp [resolvedIds, List.flatMap_cons]

/-- C7: the tag signature computed at startup is sorted in ascending lexicographic
order and is a rearrangement of the ids obtained by taking, for each configured name
in turn, the id of every catalog entry with exactly that name; a name with no
entry adds nothing, a name with several entries adds all their ids. -/
theorem resolveTags_sorted_perm (TagNames : List GoString) (tagData : List TagEntry) :
    List.Sorted (fun a b => a ≤ b) (resolveTags TagNames tagData)
      ∧ (resolveTags TagNames tagData).Perm (resolvedIds TagNames tagData) := by
  unfold resolveTags
  rw [tagNames_foldl, List.nil_append]
  exact ⟨sortStrings_sorted _, sortStrings_perm _⟩


/-- In `main` the signature is the sorted result of the tag lookup, so there the scan
accepts a document exactly when its title is the display name and its tag ids are a
rearrangement of the resolved ids. -/
theorem docMatches_resolveTags (TagNames : List GoString) (tagData : List TagEntry)
    (f : GoString) (d : Document) :
    docMatches (getFilename f) (resolveTags TagNames tagData) d = true
      ↔ d.titleStr = getFilename f ∧ d.tagIds.Perm (resolvedIds TagNames tagData) := by
  have hs : List.Sorted (fun a b => a ≤ b) (resolveTags TagNames tagData) := by
    unfold resolveTags
    exact sortStrings_sorted _
  have hp : (resolveTags TagNames tagData).Perm (resolvedIds TagNames tagData) := by
    unfold resolveTags
    rw [tagNames_foldl, List.nil_append]
    exact sortStrings_perm _
  rw [docMatches_iff]
  unfold Matches
  rw [sortStrings_eq_iff_perm d.tagIds _ hs]
  exact ⟨fun h => ⟨h.1, h.2.trans hp⟩, fun h => ⟨h.1, h.2.trans hp.symm⟩⟩

/-! ## Paths -/

theorem getElem?_append_cons_length (l : GoString) (c : Char) (b : GoString) :
    (l ++ c :: b)[l.length]? = some c := by
  rw [List.getElem?_append_right (le_refl _)]
  simp

theorem lastSlashFrom_step (l : GoString) (c : Char) (b : GoString) :
    lastSlashFrom (l ++ c :: b) (l.length + 1)
      = if c = '/' then (l.length : Int) else lastSlashFrom (l ++ c :: b) l.length := by
  rw [lastSlashFrom, getElem?_append_cons_length]
  simp

theorem lastSlashFrom_skip (pre m b : GoString) (h : ∀ c ∈ m, c ≠ '/') :
    lastSlashFrom (pre ++ m ++ b) (pre ++ m).length
      = lastSlashFrom (pre ++ m ++ b) pre.length := by
  induction m using List.reverseRecOn generalizing b with
  | nil => simp
  | append_singleton m c ih =>
    have hc : c ≠ '/' := h c (by simp)
    have hm : ∀ x ∈ m, x ≠ '/' := fun x hx => h x (by simp [hx])
    have e1 : pre ++ (m ++ [c]) ++ b = (pre ++ m) ++ c :: b := by simp
    have e2 : (pre ++ (m ++ [c])).length = (pre ++ m).length + 1 := by
      simp only [List.length_append, List.length_singleton]
      omega
    rw [e1, e2, lastSlashFrom_step, if_neg hc]
    have e3 : (pre ++ m) ++ c :: b = pre ++ m ++ ([c] ++ b) := by simp
    rw [e3]
    exact ih _ hm

theorem lastSlash_of_not_mem (s : GoString) (h : '/' ∉ s) : lastSlash s = -1 := by
  have := lastSlashFrom_skip [] s [] (fun c hc e => h (e ▸ hc))
  simp only [List.nil_append, List.append_nil, List.length_nil] at this
  unfold lastSlash
  rw [this]
  rfl

theorem lastSlash_of_split (a m : GoString) (h : '/' ∉ m) :
    lastSlash (a ++ '/' :: m) = (a.length : Int) := by
  have h1 := lastSlashFrom_skip (a ++ ['/']) m [] (fun c hc e => h (e ▸ hc))
  have e1 : a ++ ['/'] ++ m ++ [] = a ++ '/' :: m := by simp
  have e2 : (a ++ ['/']).length = a.length + 1 := by simp
  rw [e1, e2] at h1
  unfold lastSlash
  have e3 : (a ++ '/' :: m).length = (a ++ ['/'] ++ m).length := by simp
  rw [e3, h1, lastSlashFrom_step]
  simp

theorem extFrom_step (l : GoString) (c : Char) (b : GoString) :
    extFrom (l ++ c :: b) (l.length + 1)
      = if c = '/' then [] else if c = '.' then c :: b else extFrom (l ++ c :: b) l.length := by
  rw [extFrom, getElem?_append_cons_length]
  simp

theorem extFrom_skip (pre m b : GoString) (h : ∀ c ∈ m, c ≠ '/' ∧ c ≠ '.') :
    extFrom (pre ++ m ++ b) (pre ++ m).length = extFrom (pre ++ m ++ b) pre.length := by
  induction m using List.reverseRecOn generalizing b with
  | nil => simp
  | append_singleton m c ih =>
    have hc := h c (by simp)
    have hm : ∀ x ∈ m, x ≠ '/' ∧ x ≠ '.' := fun x hx => h x (by simp [hx])
    have e1 : pre ++ (m ++ [c]) ++ b = (pre ++ m) ++ c :: b := by simp
    have e2 : (pre ++ (m ++ [c])).length = (pre ++ m).length + 1 := by
      simp only [List.length_append, List.length_singleton]
      omega
    rw [e1, e2, extFrom_step, if_neg hc.1, if_neg hc.2]
    have e3 : (pre ++ m) ++ c :: b = pre ++ m ++ ([c] ++ b) := by simp
    rw [e3]
    exact ih _ hm

theorem Ext_of_not_mem (s : GoString) (h1 : '/' ∉ s) (h2 : '.' ∉ s) : Ext s = [] := by
  have := extFrom_skip [] s [] (fun c hc => ⟨fun e => h1 (e ▸ hc), fun e => h2 (e ▸ hc)⟩)
  simp only [List.nil_append, List.append_nil, List.length_nil] at this
  unfold Ext
  rw [this]
  rfl

theorem Ext_of_split (a m : GoString) (h1 : '/' ∉ m) (h2 : '.' ∉ m) :
    Ext (a ++ '.' :: m) = '.' :: m := by
  have h := extFrom_skip (a ++ ['.']) m []
    (fun c hc => ⟨fun e => h1 (e ▸ hc), fun e => h2 (e ▸ hc)⟩)
  have e1 : a ++ ['.'] ++ m ++ [] = a ++ '.' :: m := by simp
  have e2 : (a ++ ['.']).length = a.length + 1 := by simp
  rw [e1, e2] at h
  unfold Ext
  have e3 : (a ++ '.' :: m).length = (a ++ ['.'] ++ m).length := by simp
  rw [e3, h, extFrom_step]
  simp

/-- A list that holds `c` splits at the last occurrence of `c`. -/
theorem split_at_last (c : Char) (s : GoString) (h : c ∈ s) :
    ∃ a m, s = a ++ c :: m ∧ c ∉ m := by
  obtain ⟨x, y, hxy, hx⟩ := List.eq_append_cons_of_mem (List.mem_reverse.2 h)
  refine ⟨y.reverse, x.reverse, ?_, by simpa using hx⟩
  have := congrArg List.reverse hxy
  simpa using this

theorem rdropWhile_append_of_pos (p : Char → Bool) (l m : GoString)
    (h : ∀ c ∈ m, p c = true) : (l ++ m).rdropWhile p = l.rdropWhile p := by
  induction m using List.reverseRecOn with
  | nil => simp
  | append_singleton m c ih =>
    rw [← List.append_assoc, List.rdropWhile_concat_pos _ _ _ (h c (by simp))]
    exact ih (fun x hx => h x (by simp [hx]))

theorem rtakeWhile_append_of_pos (p : Char → Bool) (l m : GoString)
    (h : ∀ c ∈ m, p c = true) : (l ++ m).rtakeWhile p = l.rtakeWhile p ++ m := by
  induction m using List.reverseRecOn with
  | nil => simp
  | append_singleton m c ih =>
    rw [← List.append_assoc, List.rtakeWhile_concat_pos _ _ _ (h c (by simp)),
      ih (fun x hx => h x (by simp [hx])), List.append_assoc]

/-- On a segment without slash, cutting off `path.Ext` is the spec's stripping of
the final extension. -/
theorem take_sub_Ext (s : GoString) (h : '/' ∉ s) :
    s.take (s.length - (Ext s).length) = stripFinalExtension s := by
  unfold stripFinalExtension
  by_cases hdot : '.' ∈ s
  · obtain ⟨a, m, rfl, hm⟩ := split_at_last '.' s hdot
    have hm1 : '/' ∉ m := fun hx => h (by simp [hx])
    rw [if_pos hdot, Ext_of_split a m hm1 hm]
    have e1 : (a ++ '.' :: m).length - ('.' :: m).length = a.length := by
      simp only [List.length_append, List.length_cons]
      omega
    rw [e1, List.take_left]
    have e2 : a ++ '.' :: m = (a ++ ['.']) ++ m := by simp
    rw [e2, rdropWhile_append_of_pos _ _ m, List.rdropWhile_concat_neg, List.dropLast_concat]
    · simp
    · intro c hc
      have : c ≠ '.' := fun e => hm (e ▸ hc)
      simpa using this
  · rw [if_neg hdot, Ext_of_not_mem s h hdot]
    simp

/-- The result of `path.Base` is the single slash or holds no slash. -/
theorem Base_cases (p : GoString) : Base p = ['/'] ∨ '/' ∉ Base p := by
  unfold Base
  by_cases hp : p = []
  · right
    rw [if_pos hp]
    decide
  · rw [if_neg hp]
    simp only
    by_cases hs : '/' ∈ stripTrailingSlashes p
    · obtain ⟨a, m, hq, hm⟩ := split_at_last '/' _ hs
      rw [hq, lastSlash_of_split a m hm]
      have e1 : ((a.length : Int) + 1).toNat = a.length + 1 := by omega
      have e2 : (0 : Int) ≤ (a.length : Int) := by omega
      rw [if_pos e2, e1]
      have e3 : List.drop (a.length + 1) (a ++ '/' :: m) = m := by
        have : a ++ '/' :: m = (a ++ ['/']) ++ m := by simp
        rw [this]
        have h2 : (a ++ ['/']).length = a.length + 1 := by simp
        rw [← h2, List.drop_left]
      rw [e3]
      by_cases hm0 : m = []
      · left
        rw [if_pos hm0]
      · right
        rw [if_neg hm0]
        exact hm
    · rw [lastSlash_of_not_mem _ hs]
      have e2 : ¬ (0 : Int) ≤ -1 := by omega
      rw [if_neg e2]
      by_cases hm0 : stripTrailingSlashes p = []
      · left
        rw [if_pos hm0]
      · right
        rw [if_neg hm0]
        exact hs

theorem getFilename_eq (p : GoString) : getFilename p = stripFinalExtension (Base p) := by
  unfold getFilename
  simp only
  rcases Base_cases p with h | h
  · rw [h]
    decide
  · exact take_sub_Ext _ h

/-- On a non-empty path that does not end in a slash, `path.Base` is the text after
the last slash. -/
theorem Base_eq_lastSegment (p : GoString) (hp : p ≠ []) (hl : p.getLast? ≠ some '/') :
    Base p = lastSegment p := by
  have hstrip : stripTrailingSlashes p = p := by
    rcases List.eq_nil_or_concat p with h | ⟨l, c, h⟩
    · exact absurd h hp
    · rw [List.concat_eq_append] at h
      subst h
      have hc : c ≠ '/' := by
        intro e
        apply hl
        rw [List.getLast?_concat, e]
      unfold stripTrailingSlashes
      rw [List.rdropWhile_concat_neg]
      simpa using hc
  unfold Base lastSegment
  rw [if_neg hp]
  simp only
  rw [hstrip]
  by_cases hs : '/' ∈ p
  · obtain ⟨a, m, rfl, hm⟩ := split_at_last '/' p hs
    have hm0 : m ≠ [] := by
      intro e
      apply hl
      rw [e]
      exact List.getLast?_concat a
    rw [lastSlash_of_split a m hm]
    have e1 : ((a.length : Int) + 1).toNat = a.length + 1 := by omega
    have e2 : (0 : Int) ≤ (a.length : Int) := by omega
    have e4 : a ++ '/' :: m = (a ++ ['/']) ++ m := by simp
    have e3 : List.drop (a.length + 1) (a ++ '/' :: m) = m := by
      rw [e4]
      have h2 : (a ++ ['/']).length = a.length + 1 := by simp
      rw [← h2, List.drop_left]
    rw [if_pos e2, e1, e3, if_neg hm0, e4, rtakeWhile_append_of_pos,
      List.rtakeWhile_concat_neg]
    · simp
    · simp
    · intro c hc
      have : c ≠ '/' := fun e => hm (e ▸ hc)
      simpa using this
  · rw [lastSlash_of_not_mem _ hs]
    have e2 : ¬ (0 : Int) ≤ -1 := by omega
    rw [if_neg e2, if_neg hp]
    have := rtakeWhile_append_of_pos (fun c => c != '/') [] p
      (fun c hc => by
        have : c ≠ '/' := fun e => hs (e ▸ hc)
        simpa using this)
    simpa using this.symm

/-- Paths outside the ordinary case: the root, the empty path, a trailing slash, a
dot file. -/
theorem getFilename_edge_cases :
    getFilename "/".toList = "/".toList
      ∧ getFilename [] = []
      ∧ getFilename "a/b/".toList = "b".toList
      ∧ getFilename "a/.bashrc".toList = [] := by
  decide

theorem lastComponent_eq (p : GoString) :
    lastComponent p = lastSegment (stripTrailingSlashes p) := by
  simp [lastComponent, lastSegment, stripTrailingSlashes, List.rdropWhile, List.rtakeWhile]

/-- On a path with a character other than the slash, `path.Base` is the last
non-empty component. -/
theorem Base_eq_lastComponent (p : GoString) (h : ∃ c ∈ p, c ≠ '/') :
    Base p = lastComponent p := by
  obtain ⟨c, hc, hne⟩ := h
  have hp : p ≠ [] := List.ne_nil_of_mem hc
  have hq : stripTrailingSlashes p ≠ [] := by
    intro e
    have hall := List.rdropWhile_eq_nil_iff.1 e c hc
    exact hne (by simpa using hall)
  have hlast : (stripTrailingSlashes p).getLast? ≠ some '/' := by
    rw [List.getLast?_eq_getLast _ hq]
    intro e
    have hx := List.rdropWhile_last_not (fun c => c == '/') p hq
    have e2 : (List.rdropWhile (fun c => c == '/') p).getLast hq = '/' := Option.some.inj e
    rw [e2] at hx
    exact hx (by decide)
  have hidem : stripTrailingSlashes (stripTrailingSlashes p) = stripTrailingSlashes p :=
    List.rdropWhile_idempotent _ p
  have hB : Base p = Base (stripTrailingSlashes p) := by
    unfold Base
    rw [if_neg hp, if_neg hq]
    simp only
    rw [hidem]
  rw [hB, Base_eq_lastSegment _ hq hlast, lastComponent_eq]

/-- On a non-empty path made of slashes only, `path.Base` is the single slash. -/
theorem Base_of_slashes (p : GoString) (hp : p ≠ []) (h : ∀ c ∈ p, c = '/') :
    Base p = ['/'] := by
  have hq : stripTrailingSlashes p = [] := by
    unfold stripTrailingSlashes
    rw [List.rdropWhile_eq_nil_iff]
    intro c hc
    rw [h c hc]
    decide
  unfold Base
  rw [if_neg hp]
  simp only
  rw [hq]
  decide

/-- C6, as the code has it: on every path that is empty or holds a character other
than the slash, `getFilename` returns the last path segment (the last non-empty
component between slashes, trailing slashes ignored; empty for the empty path)
without its final extension: the text from the last `.` of the segment to its end is
removed, and a segment without `.` is returned whole.  On a non-empty path made of
slashes only it returns the single slash.  The three instances of the spec come out
as stated. -/
theorem getFilename_last_component :
    (∀ p : GoString, (p = [] ∨ ∃ c ∈ p, c ≠ '/') →
        getFilename p = stripFinalExtension (lastComponent p))
      ∧ (∀ p : GoString, p ≠ [] → (∀ c ∈ p, c = '/') → getFilename p = ['/'])
      ∧ getFilename "report.v2.pdf".toList = "report.v2".toList
      ∧ getFilename "README".toList = "README".toList
      ∧ getFilename "/a/b/x.tar.gz".toList = "x.tar".toList := by
  refine ⟨?_, ?_, by decide, by decide, by decide⟩
  · intro p hp
    rcases hp with hp | hp
    · rw [hp]
      decide
    · rw [getFilename_eq, Base_eq_lastComponent p hp]
  · intro p hp hall
    rw [getFilename_eq, Base_of_slashes p hp hall]
    decide

/-- Witness for C6: the path `a/b.c//` for the first part, `//` for the second. -/
theorem getFilename_last_component_witness :
    ("a/b.c//".toList = [] ∨ ∃ c ∈ "a/b.c//".toList, c ≠ '/')
      ∧ getFilename "a/b.c//".toList = stripFinalExtension (lastComponent "a/b.c//".toList)
      ∧ "//".toList ≠ []
      ∧ (∀ c ∈ "//".toList, c = '/')
      ∧ getFilename "//".toList = ['/'] :=
  ⟨by decide,
    getFilename_last_component.1 "a/b.c//".toList (by decide),
    by decide, by decide,
    getFilename_last_component.2.1 "//".toList (by decide) (by decide)⟩

/-- C6 as stated fails on the root path: `getFilename` returns the slash itself, while
the last path segment of `/` is empty under either reading (the text after the last
slash, or the last non-empty component).  Under the first reading it also fails on
a path with a trailing slash. -/
theorem getFilename_of_root :
    getFilename "/".toList = "/".toList
      ∧ stripFinalExtension (lastSegment "/".toList) = []
      ∧ stripFinalExtension (lastComponent "/".toList) = []
      ∧ getFilename "a/b/".toList = "b".toList
      ∧ stripFinalExtension (lastSegment "a/b/".toList) = [] := by
  decide

end TeedyImporter
